import Mathlib

/-
Verification of the NOTE-INSIGHT on-device transcription pipeline.

This file gives a shallow embedding of the core subsystems of the
repository and proves (or refutes) the specification claims about them:

 * the quality-score heuristic, sentence splitting, proportional
   timestamping, language normalization and the dual-run auto fallback of
   `TranscriptionSession.swift`;
 * the session-gated final-event handling of `TranscriptionCoordinator.ts`;
 * the WAV authoring of `WavFileWriter` in `TranscriptionModule.swift`;
 * the ring buffer of `CircularBuffer.swift`;
 * the stop path and duration computation of `TranscriptionSession.swift`.

Modelling conventions: Swift/TypeScript strings are `String` or `List Char`
(`List Char` where the code inspects individual characters); machine
integers are `Nat`/`Int`, with Swift's trapping `UInt32` arithmetic
modelled as `Option` (a `none` is a trap); `Double` arithmetic on small
integers is modelled exactly (with `Int(...)` truncation written as
integer division) only where the result is robust to IEEE-754 rounding;
the stop-path `durationMs`, whose value does depend on `Double` rounding,
is out of scope (see `durationMsOfFrames`); `Float` samples are modelled
as rationals.
-/

/-! ## Character-level helpers shared by several components -/

/-- Lower-casing of a character as used by Swift `lowercased()`, restricted
to ASCII letters plus the upper-case Turkish letters that occur in this
code base.  Everything else is left unchanged. -/
def lowerChar (c : Char) : Char :=
  if 'A' ≤ c ∧ c ≤ 'Z' then Char.ofNat (c.toNat + 32)
  else if c = 'Ç' then 'ç'
  else if c = 'Ğ' then 'ğ'
  else if c = 'Ö' then 'ö'
  else if c = 'Ş' then 'ş'
  else if c = 'Ü' then 'ü'
  else if c = 'İ' then 'i'
  else c

/-- Whitespace test standing for Foundation's `whitespacesAndNewlines`
(idealized to the ASCII whitespace characters Lean knows about). -/
def isWsChar (c : Char) : Bool := c.isWhitespace

/-- `wordsAux cur l` splits `l` into maximal runs of non-whitespace
characters; `cur` is the (reversed) run currently being read.  This embeds
`components(separatedBy: .whitespacesAndNewlines).filter { !$0.isEmpty }`
from `computeQualityScore`. -/
def wordsAux (cur : List Char) : List Char → List (List Char)
  | [] => if cur.isEmpty then [] else [cur.reverse]
  | c :: cs =>
    if isWsChar c then
      if cur.isEmpty then wordsAux [] cs else cur.reverse :: wordsAux [] cs
    else wordsAux (c :: cur) cs

/-- The non-empty whitespace-separated tokens of a character list. -/
def splitWords (l : List Char) : List (List Char) := wordsAux [] l

/-! ## Quality score (`TranscriptionSession.computeQualityScore`) -/

/-- The Turkish letters counted by the `tr` hint bonus
(`Set("çğışöü")` in the source). -/
def turkishLetters : List Char := ['ç', 'ğ', 'ı', 'ş', 'ö', 'ü']

/-- `TR_COMMON`: the Turkish stop-word set of `computeQualityScore`. -/
def turkishWords : List (List Char) :=
  (["ve", "bir", "bu", "ben", "sen", "için", "değil", "şimdi", "var", "yok",
    "ile", "olan", "gibi", "kadar", "daha", "çok", "az", "en", "da", "de",
    "ki", "mi", "mı", "mu", "mü"]).map String.toList

/-- `EN_COMMON`: the English stop-word set of `computeQualityScore`. -/
def englishWords : List (List Char) :=
  (["the", "and", "is", "are", "to", "of", "in", "for", "with", "i", "you",
    "we", "they", "this", "that", "have", "has", "had", "was", "were",
    "been", "be", "do", "does", "did", "will", "would", "can", "could",
    "should", "may", "might"]).map String.toList

/-- The `maxRepeat` loop of `computeQualityScore`:
`var maxRepeat = 0; var currentRepeat = 1;` then for each adjacent pair of
equal words bump `currentRepeat` and fold it into `maxRepeat`, otherwise
reset `currentRepeat` to 1. -/
def maxRepeatAux (prev : List Char) (cur maxR : Nat) :
    List (List Char) → Nat
  | [] => maxR
  | w :: ws =>
    if w = prev then maxRepeatAux w (cur + 1) (max maxR (cur + 1)) ws
    else maxRepeatAux w 1 maxR ws

/-- `maxRepeat` over a word list (0 when fewer than two words, as in the
source where the loop `for i in 1..<count` does not run). -/
def codeMaxRepeat : List (List Char) → Nat
  | [] => 0
  | w :: ws => maxRepeatAux w 1 0 ws

/-- The length of the longest run of identical consecutive tokens — the
quantity named `maxRepeat` by the specification's score formula. -/
def maxRunAux (prev : List Char) (cur best : Nat) : List (List Char) → Nat
  | [] => max best cur
  | w :: ws =>
    if w = prev then maxRunAux w (cur + 1) best ws
    else maxRunAux w 1 (max best cur) ws

/-- Longest run of identical consecutive tokens (0 for the empty list). -/
def maxRun : List (List Char) → Nat
  | [] => 0
  | w :: ws => maxRunAux w 1 0 ws

/-- The language-hint bonus of `computeQualityScore`: for hint `tr`,
4 per Turkish letter of the lower-cased text plus 3 per `TR_COMMON` word
occurrence; for hint `en`, 1 per `EN_COMMON` word occurrence. -/
def languageHintBonus (lowered : List Char) (words : List (List Char))
    (languageHint : String) : Int :=
  if languageHint = "tr" then
    4 * ((lowered.filter (fun c => turkishLetters.contains c)).length : Int) +
      3 * ((words.filter (fun w => turkishWords.contains w)).length : Int)
  else if languageHint = "en" then
    ((words.filter (fun w => englishWords.contains w)).length : Int)
  else 0

/-- `TranscriptionSession.computeQualityScore`, translated statement by
statement from the Swift source (the `Double` score is integral on every
path, so it is modelled in `Int`).  The nonsense penalty iterates over all
word *occurrences*, adding 1 for each occurrence of a word of length ≤ 2
that appears more than 3 times in total. -/
def computeQualityScore (text : List Char) (languageHint : String) : Int :=
  let lowered := text.map lowerChar
  let words := splitWords lowered
  if words.length = 0 then 0
  else
    let maxRepeat := codeMaxRepeat words
    let repeatPenalty : Int := if maxRepeat > 2 then (maxRepeat : Int) * 5 else 0
    let nonsenseCount :=
      (words.filter (fun w => w.length ≤ 2 ∧ 3 < words.count w)).length
    let nonsensePenalty : Int := (nonsenseCount : Int) * 3
    let bonus := languageHintBonus lowered words languageHint
    min (words.length : Int) 80 + bonus - repeatPenalty - nonsensePenalty

/-- The quality score exactly as claim C2 states it: identical to the code
except that the nonsense penalty is 3 per *distinct* word of length ≤ 2
occurring more than 3 times, and the repeat penalty is written with the
longest-run function. -/
def qualityScoreClaim (text : List Char) (languageHint : String) : Int :=
  let lowered := text.map lowerChar
  let words := splitWords lowered
  let repeatPen : Int := if maxRun words > 2 then 5 * (maxRun words : Int) else 0
  let nonsensePen : Int :=
    3 * ((words.dedup.filter (fun w => w.length ≤ 2 ∧ 3 < words.count w)).length : Int)
  min (words.length : Int) 80 + languageHintBonus lowered words languageHint -
    repeatPen - nonsensePen

/-- The amended quality-score formula: as claim C2, but the nonsense
penalty counts word occurrences (not distinct words), matching the code. -/
def qualityScoreAmended (text : List Char) (languageHint : String) : Int :=
  let lowered := text.map lowerChar
  let words := splitWords lowered
  let repeatPen : Int := if maxRun words > 2 then 5 * (maxRun words : Int) else 0
  let nonsensePen : Int :=
    3 * ((words.filter (fun w => w.length ≤ 2 ∧ 3 < words.count w)).length : Int)
  min (words.length : Int) 80 + languageHintBonus lowered words languageHint -
    repeatPen - nonsensePen

/-! ## Sentence splitting and proportional timestamps
(`TranscriptionSession.splitIntoSentences` /
`createSegmentsWithTimestamps`) -/

/-- The sentence-terminator class `[.!?]` of the split pattern. -/
def isSentencePunct (c : Char) : Bool := c = '.' || c = '!' || c = '?'

/-- `trimmingCharacters(in: .whitespaces)`: remove whitespace from both
ends. -/
def trimChars (l : List Char) : List Char :=
  ((l.dropWhile isWsChar).reverse.dropWhile isWsChar).reverse

/-- One pass of the regex scan for `[.!?]+\s+`.  `cur` holds (reversed) the
characters of the sentence currently being accumulated.  On a match the
text up to the end of the whitespace run is emitted (trimmed, dropped when
empty); a punctuation run not followed by whitespace cannot start a match
anywhere inside it, so it is consumed into the current sentence.  `fuel`
only justifies termination; `splitIntoSentences` supplies enough of it. -/
def splitSentencesGo : Nat → List Char → List Char → List (List Char)
  | 0, _, _ => []
  | _ + 1, cur, [] =>
    let rem := trimChars cur.reverse
    if rem.isEmpty then [] else [rem]
  | fuel + 1, cur, c :: cs =>
    if isSentencePunct c then
      let ps := (c :: cs).takeWhile isSentencePunct
      let r1 := (c :: cs).dropWhile isSentencePunct
      match r1 with
      | d :: _ =>
        if isWsChar d then
          let ws := r1.takeWhile isWsChar
          let r2 := r1.dropWhile isWsChar
          let sentence := trimChars (cur.reverse ++ ps ++ ws)
          if sentence.isEmpty then splitSentencesGo fuel [] r2
          else sentence :: splitSentencesGo fuel [] r2
        else splitSentencesGo fuel (ps.reverse ++ cur) r1
      | [] =>
        let rem := trimChars (cur.reverse ++ ps)
        if rem.isEmpty then [] else [rem]
    else splitSentencesGo fuel (c :: cur) cs

/-- `TranscriptionSession.splitIntoSentences`: split on `[.!?]+\s+` keeping
the punctuation with the preceding sentence, trim each piece, drop empty
pieces, and fall back to the whole text when nothing survives. -/
def splitIntoSentences (text : List Char) : List (List Char) :=
  let sentences := splitSentencesGo (text.length + 1) [] text
  if sentences.isEmpty then [text] else sentences

/-- A transcript segment as emitted by the native session
(`{startMs, endMs, text, lang}`). -/
structure Seg where
  startMs : Nat
  endMs : Nat
  text : List Char
  lang : String
deriving DecidableEq, Repr

/-- The per-sentence loop of `createSegmentsWithTimestamps`: each sentence
gets `Int(Double(durationMs) * Double(|s|) / Double(totalChars))`
milliseconds (exact integer division here), clipped at `durationMs`.
`currentMs` threads the running start time. -/
def segLoop (durationMs totalChars : Nat) (lang : String) :
    List (List Char) → Nat → List Seg
  | [], _ => []
  | s :: rest, currentMs =>
    let segmentDuration := durationMs * s.length / totalChars
    let segmentEndMs := min (currentMs + segmentDuration) durationMs
    ⟨currentMs, segmentEndMs, s, lang⟩ ::
      segLoop durationMs totalChars lang rest segmentEndMs

/-- `TranscriptionSession.createSegmentsWithTimestamps`. -/
def createSegmentsWithTimestamps (sentences : List (List Char))
    (durationMs : Nat) (lang : String) : List Seg :=
  if sentences.isEmpty then []
  else
    let totalChars := (sentences.map List.length).sum
    if totalChars = 0 then []
    else segLoop durationMs totalChars lang sentences 0

/-- `TranscriptionSession.buildSegmentsFromText`. -/
def buildSegmentsFromText (text : List Char) (durationMs : Nat)
    (lang : String) : List Seg :=
  createSegmentsWithTimestamps (splitIntoSentences text) durationMs lang

/-- `TranscriptionSession.normalizeSegmentLang`. -/
def normalizeSegmentLang (lang : String) : String :=
  if lang = "auto_tr" then "tr"
  else if lang = "auto_en" then "en"
  else if lang = "tr" || lang = "en" then lang
  else "en"

/-- `TranscriptionSession.runAutoFallback`, with the two recognizer results
supplied as inputs: `trText`/`enText` are the texts of the `tr` and `en`
runs (already `""` when the corresponding run reported an error, exactly as
the source computes `trText`/`enText`). -/
def runAutoFallback (trText enText : List Char) : List Char × String :=
  if trText.isEmpty ∧ ¬enText.isEmpty then (enText, "auto_en")
  else if enText.isEmpty ∧ ¬trText.isEmpty then (trText, "auto_tr")
  else if trText.isEmpty ∧ enText.isEmpty then ([], "auto_en")
  else
    let trScore := computeQualityScore trText "tr"
    let enScore := computeQualityScore enText "en"
    if trScore > enScore then (trText, "auto_tr") else (enText, "auto_en")

/-! ## Session coordinator (`TranscriptionCoordinator.handleFinal`) -/

/-- A segment as carried by an `onAsrFinal` event payload. -/
structure EvSeg where
  startMs : Nat
  endMs : Nat
  text : String
  lang : Option String
deriving DecidableEq, Repr

/-- An `onAsrFinal` event (`durationMs`/`error` are not read by
`handleFinal` and are omitted). -/
structure FinalEvent where
  noteId : String
  sessionId : String
  segments : List EvSeg
deriving DecidableEq, Repr

/-- The slice of `useRecordingStore` read by `handleFinal`. -/
structure RecStore where
  sessionId : Option String
  noteId : Option String
deriving DecidableEq, Repr

/-- The coordinator's private state. -/
structure CoordState where
  insertedFinalKeys : List String
  lastActiveSessionId : Option String
  lastActiveNoteId : Option String
deriving DecidableEq, Repr

/-- A row passed to `insertSegments` (its `noteId` is the event's). -/
structure InsRow where
  startMs : Nat
  endMs : Nat
  text : String
  isFinal : Bool
  lang : Option String
deriving DecidableEq, Repr

/-- JavaScript truthiness of a nullable string
(`null`/`undefined` and `""` are falsy). -/
def jsTruthy : Option String → Bool
  | none => false
  | some s => s ≠ ""

/-- The dedupe key `"noteId:startMs:endMs:text"` of `handleFinal`. -/
def segKey (noteId : String) (seg : EvSeg) : String :=
  noteId ++ ":" ++ toString seg.startMs ++ ":" ++ toString seg.endMs ++ ":" ++ seg.text

/-- The dedupe/collect loop of `handleFinal`: for each event segment whose
key is not in `insertedFinalKeys` yet, add the key and queue the row with
`isFinal = true` and the segment's `lang` (or null) passed through. -/
def collectFinalRows (noteId : String) :
    List EvSeg → List String × List InsRow → List String × List InsRow
  | [], acc => acc
  | seg :: rest, (keys, rows) =>
    let key := segKey noteId seg
    if keys.contains key then collectFinalRows noteId rest (keys, rows)
    else
      collectFinalRows noteId rest
        (key :: keys, rows ++ [⟨seg.startMs, seg.endMs, seg.text, true, seg.lang⟩])

/-- The insert phase of `handleFinal` (after the gate has passed): dedupe,
insert when anything is new, and clear `lastActive*` after a successful
insert. -/
def processFinalInsert (st : CoordState) (ev : FinalEvent) :
    CoordState × List InsRow :=
  let (keys, rows) := collectFinalRows ev.noteId ev.segments (st.insertedFinalKeys, [])
  if rows.isEmpty then ({ st with insertedFinalKeys := keys }, [])
  else
    ({ insertedFinalKeys := keys, lastActiveSessionId := none,
       lastActiveNoteId := none }, rows)

/-- `TranscriptionCoordinator.handleFinal`: gate on the live session's id
when the store holds one, otherwise on `lastActiveSessionId` and
`lastActiveNoteId`; on a gate failure drop the event.  The returned row
list is what reaches `insertSegments` (for `ev.noteId`). -/
def handleFinal (st : CoordState) (store : RecStore) (ev : FinalEvent) :
    CoordState × List InsRow :=
  if jsTruthy store.sessionId then
    if store.sessionId = some ev.sessionId then processFinalInsert st ev
    else (st, [])
  else
    if st.lastActiveSessionId = some ev.sessionId ∧
        st.lastActiveNoteId = some ev.noteId then processFinalInsert st ev
    else (st, [])

/-- The gate predicate of claim C1, factored out of `handleFinal`. -/
def finalGatePasses (st : CoordState) (store : RecStore) (ev : FinalEvent) : Prop :=
  if jsTruthy store.sessionId then store.sessionId = some ev.sessionId
  else st.lastActiveSessionId = some ev.sessionId ∧
    st.lastActiveNoteId = some ev.noteId

instance (st : CoordState) (store : RecStore) (ev : FinalEvent) :
    Decidable (finalGatePasses st store ev) := by
  unfold finalGatePasses; split <;> infer_instance

/-! ## Stop path of `TranscriptionSession` -/

/-- The externally observable actions of `stopRecording`, in program
order. -/
inductive StopEffect where
  | cancelTimer
  | waitInference
  | engineStop
  | queueBarrier
  | audioSessionReset
  | finishWavFile
  | stateEmitted
  | finalScheduled
deriving DecidableEq, Repr

/-- The result dictionary of `stopRecording`. -/
structure StopResult where
  audioPath : String
  durationMs : Nat
  languageLock : String
deriving DecidableEq, Repr

/-- The session state touched by `stopRecording`. -/
structure Session where
  isRecording : Bool
  noteId : Option String
  sessionId : Option String
  languageMode : String
  languageLock : Option String
  totalFramesWritten : Nat
  wavWriterOpen : Bool
  audioFilePath : Option String
deriving DecidableEq, Repr

/-- Placeholder for the `durationMs` that stop computes.  The source
evaluates `Int(Double(totalFramesWritten) / 16000.0 * 1000.0)` in IEEE-754
`Double` arithmetic; this exact integer division is NOT always equal to it
(e.g. at `totalFramesWritten = 16016` the `Double` computation yields 1000
while this gives 1001), so no theorem in this file relies on the value of
this field — properties of the duration value are outside this
embedding. -/
def durationMsOfFrames (totalFramesWritten : Nat) : Nat :=
  totalFramesWritten * 1000 / 16000

/-- `TranscriptionSession.stopRecording(languageLock:)`.  The guard path
(`not recording` or no note id) returns the empty result and performs no
action at all; the active path mirrors the source's sequence of effects
and state updates.  (The second early return, when no WAV writer or path
exists, happens after the engine teardown effects, as in the source.) -/
def stopRecording (languageLock : String) (s : Session) :
    Session × StopResult × List StopEffect :=
  match s.isRecording, s.noteId with
  | true, some _ =>
    let s1 := { s with isRecording := false }
    let teardown := [StopEffect.cancelTimer, StopEffect.waitInference,
      StopEffect.engineStop, StopEffect.queueBarrier, StopEffect.audioSessionReset]
    match s1.wavWriterOpen, s1.audioFilePath with
    | true, some path =>
      let durationMs := durationMsOfFrames s1.totalFramesWritten
      let s2 := { s1 with wavWriterOpen := false, languageLock := some languageLock }
      (s2, ⟨path, durationMs, languageLock⟩,
        teardown ++ [StopEffect.finishWavFile, StopEffect.stateEmitted,
          StopEffect.finalScheduled])
    | _, _ => (s1, ⟨"", 0, languageLock⟩, teardown)
  | _, _ => (s, ⟨"", 0, languageLock⟩, [])

/-! ## WAV authoring (`WavFileWriter` in `TranscriptionModule.swift`) -/

/-- Little-endian bytes of a 16-bit value. -/
def le16 (n : Nat) : List Nat := [n % 256, n / 256 % 256]

/-- Little-endian bytes of a 32-bit value. -/
def le32 (n : Nat) : List Nat :=
  [n % 256, n / 256 % 256, n / 65536 % 256, n / 16777216 % 256]

/-- `WavFileWriter.createWavHeader`: the 44-byte RIFF/WAVE header.  The
ASCII tags are spelled as byte values. -/
def createWavHeader (dataSize sampleRate channels bitsPerSample : Nat) :
    List Nat :=
  let byteRate := sampleRate * channels * (bitsPerSample / 8)
  let blockAlign := channels * (bitsPerSample / 8)
  let chunkSize := 36 + dataSize
  [82, 73, 70, 70] ++ le32 chunkSize ++ [87, 65, 86, 69] ++
    [102, 109, 116, 32] ++ le32 16 ++ le16 1 ++ le16 channels ++
    le32 sampleRate ++ le32 byteRate ++ le16 blockAlign ++
    le16 bitsPerSample ++ [100, 97, 116, 97] ++ le32 dataSize

/-- The two little-endian bytes of an `Int16` sample, as produced by
`samples.withUnsafeBufferPointer { Data(buffer: $0) }`. -/
def int16Bytes (s : Int) : List Nat :=
  let u := (s % 65536).toNat
  [u % 256, u / 256]

/-- The writer's state: the bytes written to the file so far and the
`dataSize` counter (a `UInt32` in the source; kept exact here because the
trapping arithmetic is modelled in `appendSamples`/`finishWav`). -/
structure WavW where
  bytes : List Nat
  dataSize : Nat
deriving DecidableEq, Repr

/-- Writer construction, as the session performs it: truncate the file and
write a placeholder header with all size fields 0 (sampleRate 16000,
mono, 16-bit). -/
def WavW.init : WavW := ⟨createWavHeader 0 16000 1 16, 0⟩

/-- `WavFileWriter.append(samples:)`.  Swift's
`dataSize += UInt32(data.count)` traps on overflow; a trap is `none`. -/
def appendSamples (w : WavW) (samples : List Int) : Option WavW :=
  let data := samples.flatMap int16Bytes
  if w.dataSize + data.length < 4294967296 then
    some ⟨w.bytes ++ data, w.dataSize + data.length⟩
  else none

/-- `WavFileWriter.finish()`: rewrite the first 44 bytes with the corrected
header.  `let chunkSize = 36 + dataSize` is trapping `UInt32` addition,
hence the overflow guard. -/
def finishWav (w : WavW) : Option WavW :=
  if 36 + w.dataSize < 4294967296 then
    some ⟨createWavHeader w.dataSize 16000 1 16 ++ w.bytes.drop 44, w.dataSize⟩
  else none

/-- A whole writer run: a sequence of `append` calls followed by
`finish()`; `none` when any step trapped. -/
def wavRun (chunks : List (List Int)) : Option WavW :=
  chunks.foldlM appendSamples WavW.init >>= finishWav

/-- Read a little-endian 32-bit field at a byte offset of a file. -/
def readLE32 (file : List Nat) (offset : Nat) : Nat :=
  match file.drop offset with
  | b0 :: b1 :: b2 :: b3 :: _ => b0 + 256 * b1 + 65536 * b2 + 16777216 * b3
  | _ => 0

/-! ## Ring buffer (`CircularBuffer.swift`) -/

/-- The ring-buffer state.  The backing `Array(repeating: 0, count:
capacity)` is modelled as a total function (only indices below `capacity`
are ever touched). -/
structure CBuf where
  buffer : Nat → Int
  writeIndex : Nat
  count : Nat
  capacity : Nat

/-- `CircularBuffer(capacity:)`. -/
def CBuf.init (capacity : Nat) : CBuf := ⟨fun _ => 0, 0, 0, capacity⟩

/-- The loop body of `append(contentsOf:)` for one element. -/
def CBuf.appendOne (s : CBuf) (x : Int) : CBuf :=
  { s with
    buffer := fun i => if i = s.writeIndex then x else s.buffer i
    writeIndex := (s.writeIndex + 1) % s.capacity
    count := min (s.count + 1) s.capacity }

/-- `append(contentsOf:)`. -/
def CBuf.appendList (s : CBuf) (elements : List Int) : CBuf :=
  elements.foldl CBuf.appendOne s

/-- A sequence of `append(contentsOf:)` calls. -/
def CBuf.appendCalls (s : CBuf) (calls : List (List Int)) : CBuf :=
  calls.foldl CBuf.appendList s

/-- `CircularBuffer.getSnapshot(maxSamples:)`, ported branch by branch. -/
def CBuf.getSnapshot (s : CBuf) (maxSamples : Option Nat) : List Int :=
  if s.count = 0 then []
  else
    let samplesToReturn := match maxSamples with
      | some m => min m s.count
      | none => s.count
    if samplesToReturn = 0 then []
    else
      let startIndex := if s.count = s.capacity then s.writeIndex else 0
      let samplesFromStart := if s.count = s.capacity then s.capacity else s.count
      let read := fun i => s.buffer ((startIndex + i) % s.capacity)
      match maxSamples with
      | some m =>
        if samplesFromStart > m then
          ((List.range samplesFromStart).drop (samplesFromStart - m)).map read
        else (List.range samplesFromStart).map read
      | none => (List.range samplesFromStart).map read

/-! ## Audio tap conversion (`installTap` callback) -/

/-- Truncation toward zero, as Swift's `Int16(_: Double)` rounds. -/
def ratTrunc (q : ℚ) : Int := if 0 ≤ q then ⌊q⌋ else ⌈q⌉

/-- `let clamped = max(-1.0, min(1.0, floatValue))`. -/
def tapClamp (x : ℚ) : ℚ := max (-1) (min 1 x)

/-- `Int16(clamped * 32767.0)`: the Int16 sample produced for one float
input (floats idealized as rationals). -/
def tapConvert (x : ℚ) : Int := ratTrunc (tapClamp x * 32767)

/-! ## Supporting lemmas -/

theorem segLoop_lang_all (durationMs totalChars : Nat) (lang : String) :
    ∀ (sentences : List (List Char)) (currentMs : Nat),
      (segLoop durationMs totalChars lang sentences currentMs).all
        (fun seg => seg.lang == lang) = true := by
  intro sentences
  induction sentences with
  | nil => intro currentMs; rfl
  | cons s rest ih => intro currentMs; simp [segLoop, ih]

theorem createSegments_lang_all (sentences : List (List Char))
    (durationMs : Nat) (lang : String) :
    (createSegmentsWithTimestamps sentences durationMs lang).all
      (fun seg => seg.lang == lang) = true := by
  unfold createSegmentsWithTimestamps
  split
  · rfl
  · dsimp only
    split
    · rfl
    · exact segLoop_lang_all durationMs _ lang sentences 0

/-! ## Claim C6: the nominal EN scenario -/

/-- Claim C6 is false as stated: on "Hello world. This is a test." with
`durationMs = 5000` the code's proportional distribution (sentence lengths
12 and 15 of 27 characters) yields `[0..2222]` and `[2222..4999]`, not
`[0..2500]` and `[2500..5000]`. -/
theorem split_scenario_claim_cex :
    buildSegmentsFromText "Hello world. This is a test.".toList 5000 "en" ≠
      [⟨0, 2500, "Hello world.".toList, "en"⟩,
       ⟨2500, 5000, "This is a test.".toList, "en"⟩] := by decide

/-- Claim C6 (amended): on "Hello world. This is a test." with
`durationMs = 5000`, sentence splitting with proportional timestamp
distribution produces exactly two segments `[0..2222] "Hello world."` and
`[2222..4999] "This is a test."` (`⌊5000·12/27⌋ = 2222` and
`min(2222 + ⌊5000·15/27⌋, 5000) = 4999`). -/
theorem split_scenario_segments :
    buildSegmentsFromText "Hello world. This is a test.".toList 5000 "en" =
      [⟨0, 2222, "Hello world.".toList, "en"⟩,
       ⟨2222, 4999, "This is a test.".toList, "en"⟩] := by decide

/-! ## Claim C7: auto fallback chooses Turkish -/

/-- Claim C7: with the stub recognizer returning "the the the the the" for
`en` and "merhaba bu bir test cümlesidir" for `tr`, the dual-run fallback
chooses the Turkish transcript with language lock `auto_tr`, and every
segment built from it (for any duration) carries lang `tr`. -/
theorem auto_fallback_turkish :
    runAutoFallback "merhaba bu bir test cümlesidir".toList
        "the the the the the".toList =
      ("merhaba bu bir test cümlesidir".toList, "auto_tr") ∧
    normalizeSegmentLang "auto_tr" = "tr" ∧
    ∀ durationMs : Nat,
      (buildSegmentsFromText "merhaba bu bir test cümlesidir".toList
          durationMs (normalizeSegmentLang "auto_tr")).all
        (fun seg => seg.lang == "tr") = true := by
  refine ⟨by decide, by decide, ?_⟩
  intro durationMs
  exact createSegments_lang_all _ durationMs _

/-! ## Claim C9: float-to-Int16 conversion -/

/-- Claim C9: for every float input `x` of the tap callback, the produced
sample equals the truncation of `max(-1, min(1, x)) * 32767` and lies in
`[-32767, 32767]`; in particular `-32768` is never produced. -/
theorem tap_conversion_bounds (x : ℚ) :
    tapConvert x = ratTrunc (max (-1) (min 1 x) * 32767) ∧
    -32767 ≤ tapConvert x ∧ tapConvert x ≤ 32767 ∧ tapConvert x ≠ -32768 := by
  have hc1 : tapClamp x ≤ 1 := by
    unfold tapClamp
    apply max_le (by norm_num) (min_le_left _ _)
  have hc2 : (-1 : ℚ) ≤ tapClamp x := le_max_left _ _
  have hp1 : tapClamp x * 32767 ≤ 32767 := by nlinarith
  have hp2 : (-32767 : ℚ) ≤ tapClamp x * 32767 := by nlinarith
  have hlo : -32767 ≤ tapConvert x := by
    unfold tapConvert ratTrunc
    split
    · have h0 : (0 : Int) ≤ ⌊tapClamp x * 32767⌋ := Int.floor_nonneg.mpr (by assumption)
      omega
    · have := Int.le_ceil (tapClamp x * 32767)
      have : (-32767 : ℚ) ≤ (⌈tapClamp x * 32767⌉ : ℚ) := le_trans hp2 this
      exact_mod_cast this
  have hhi : tapConvert x ≤ 32767 := by
    unfold tapConvert ratTrunc
    split
    · have := Int.floor_le (tapClamp x * 32767)
      have h1 : (⌊tapClamp x * 32767⌋ : ℚ) ≤ 32767 := le_trans this hp1
      exact_mod_cast h1
    · have h0 : ⌈tapClamp x * 32767⌉ ≤ 0 := Int.ceil_le.mpr (by push_cast; linarith)
      omega
  exact ⟨rfl, hlo, hhi, by omega⟩

/-! ## Claim C10: stopRecording with no active recording -/

/-- Claim C10: calling `stopRecording(L)` when not recording or with no
note id returns `{audioPath: "", durationMs: 0, languageLock: L}`, leaves
the session state untouched and performs no effect (no timer cancel, no
file access, no event). -/
theorem stop_idle_noop (s : Session) (languageLock : String)
    (h : s.isRecording = false ∨ s.noteId = none) :
    stopRecording languageLock s = (s, ⟨"", 0, languageLock⟩, []) := by
  unfold stopRecording
  cases hR : s.isRecording <;> cases hN : s.noteId <;> simp_all

/-- Witness for C10 at a concrete idle session. -/
theorem stop_idle_noop_witness :
    stopRecording "en"
        (⟨false, none, none, "auto", none, 0, false, none⟩ : Session) =
      ((⟨false, none, none, "auto", none, 0, false, none⟩ : Session),
        ⟨"", 0, "en"⟩, []) :=
  stop_idle_noop _ "en" (Or.inl rfl)

/-! ## Claim C1: final-event session gating -/

/-- Claim C1: a final event leads to segment insertion only when the gate
passes — with a live (truthy) store session id, only on an exact session
match; with no live session, only when the event matches both
`lastActiveSessionId` and `lastActiveNoteId`; in every other case the
event is dropped, leaving the coordinator state unchanged and inserting
nothing. -/
theorem final_event_gating (st : CoordState) (store : RecStore)
    (ev : FinalEvent) :
    (¬ finalGatePasses st store ev → handleFinal st store ev = (st, [])) ∧
    (jsTruthy store.sessionId = true → (handleFinal st store ev).2 ≠ [] →
      store.sessionId = some ev.sessionId) ∧
    (jsTruthy store.sessionId = false → (handleFinal st store ev).2 ≠ [] →
      st.lastActiveSessionId = some ev.sessionId ∧
        st.lastActiveNoteId = some ev.noteId) := by
  unfold handleFinal finalGatePasses
  by_cases ht : jsTruthy store.sessionId
  · simp only [ht, if_pos]
    by_cases hm : store.sessionId = some ev.sessionId
    · simp [hm]
    · simp [hm]
  · simp only [ht, Bool.false_eq_true, if_neg, if_false]
    by_cases hm : st.lastActiveSessionId = some ev.sessionId ∧
        st.lastActiveNoteId = some ev.noteId
    · simp [hm, ht]
    · simp [hm, ht]

/-- Witness for C1: a stale final (no live session, mismatching last-active
ids) is dropped without insertion. -/
theorem final_event_gating_witness :
    handleFinal ⟨[], none, none⟩ ⟨none, none⟩
        ⟨"noteA", "stale", [⟨0, 10, "hello", some "en"⟩]⟩ =
      (⟨[], none, none⟩, []) :=
  (final_event_gating _ _ _).1 (by decide)

/-! ## Claim C8: language values reaching storage -/

/-- The language values allowed in persistent storage. -/
def allowedLang (lang : Option String) : Prop :=
  lang = some "en" ∨ lang = some "tr" ∨ lang = none

instance (lang : Option String) : Decidable (allowedLang lang) := by
  unfold allowedLang; infer_instance

theorem collectFinalRows_lang (P : Option String → Prop) (noteId : String) :
    ∀ (segs : List EvSeg) (keys : List String) (rows : List InsRow),
      (∀ r ∈ rows, P r.lang) → (∀ s ∈ segs, P s.lang) →
      ∀ r ∈ (collectFinalRows noteId segs (keys, rows)).2, P r.lang := by
  intro segs
  induction segs with
  | nil =>
    intro keys rows hrows _ r hr
    simp only [collectFinalRows] at hr
    exact hrows r hr
  | cons s rest ih =>
    intro keys rows hrows hsegs r hr
    simp only [collectFinalRows] at hr
    split at hr
    · exact ih keys rows hrows (fun t ht => hsegs t (List.mem_cons_of_mem s ht)) r hr
    · refine ih _ _ ?_ (fun t ht => hsegs t (List.mem_cons_of_mem s ht)) r hr
      intro t ht
      rcases List.mem_append.mp ht with h | h
      · exact hrows t h
      · rcases List.mem_singleton.mp h with rfl
        exact hsegs s (List.mem_cons_self s rest)

/-- Claim C8: `normalizeSegmentLang` only ever produces `en` or `tr`; every
segment of a final built by the session therefore carries `en` or `tr`;
and `handleFinal` passes segment langs through unchanged (or null), so
when every event-segment lang is in `{en, tr, null}`, so is every inserted
row's. -/
theorem segment_lang_storage :
    (∀ lang, normalizeSegmentLang lang = "en" ∨ normalizeSegmentLang lang = "tr") ∧
    (∀ (text : List Char) (durationMs : Nat) (languageLock : String),
      ∀ seg ∈ buildSegmentsFromText text durationMs
          (normalizeSegmentLang languageLock),
        seg.lang = "en" ∨ seg.lang = "tr") ∧
    (∀ (st : CoordState) (store : RecStore) (ev : FinalEvent),
      (∀ s ∈ ev.segments, allowedLang s.lang) →
      ∀ r ∈ (handleFinal st store ev).2, allowedLang r.lang) := by
  have hnorm : ∀ lang, normalizeSegmentLang lang = "en" ∨
      normalizeSegmentLang lang = "tr" := by
    intro lang
    unfold normalizeSegmentLang
    split_ifs with h1 h2 h3
    · exact Or.inr rfl
    · exact Or.inl rfl
    · rcases Bool.or_eq_true_iff.mp h3 with h | h
      · exact Or.inr (by simpa using h)
      · exact Or.inl (by simpa using h)
    · exact Or.inl rfl
  refine ⟨hnorm, ?_, ?_⟩
  · intro text durationMs languageLock seg hmem
    have hall := createSegments_lang_all (splitIntoSentences text) durationMs
      (normalizeSegmentLang languageLock)
    rw [List.all_eq_true] at hall
    have hbeq := hall seg hmem
    have hlang : seg.lang = normalizeSegmentLang languageLock := by
      simpa using hbeq
    rw [hlang]
    exact hnorm languageLock
  · intro st store ev hall r hr
    unfold handleFinal at hr
    have hproc : ∀ hr2 : r ∈ (processFinalInsert st ev).2, allowedLang r.lang := by
      intro hr2
      unfold processFinalInsert at hr2
      rcases hcol : collectFinalRows ev.noteId ev.segments
          (st.insertedFinalKeys, []) with ⟨keys, rows⟩
      rw [hcol] at hr2
      dsimp only at hr2
      have hrows : ∀ t ∈ rows, allowedLang t.lang := by
        intro t ht
        have := collectFinalRows_lang allowedLang ev.noteId ev.segments
          st.insertedFinalKeys [] (by intro u hu; cases hu) hall t
        rw [hcol] at this
        exact this ht
      by_cases hre : rows.isEmpty
      · rw [if_pos hre] at hr2
        simp at hr2
      · rw [if_neg hre] at hr2
        exact hrows r hr2
    split at hr
    · split at hr
      · exact hproc hr
      · cases hr
    · split at hr
      · exact hproc hr
      · cases hr

/-- Witness for C8: a concrete event segment with lang `en` yields an
inserted row whose lang is allowed. -/
theorem segment_lang_storage_witness :
    allowedLang ((⟨0, 10, "hello", true, some "en"⟩ : InsRow).lang) :=
  segment_lang_storage.2.2 ⟨[], none, none⟩ ⟨some "live", some "noteA"⟩
    ⟨"noteA", "live", [⟨0, 10, "hello", some "en"⟩]⟩ (by decide)
    ⟨0, 10, "hello", true, some "en"⟩ (by decide)

/-! ## Claim C2: the quality-score formula -/

theorem wordsAux_eq_nil : ∀ (l : List Char) (cur : List Char),
    wordsAux cur l = [] → cur = [] ∧ ∀ c ∈ l, isWsChar c = true := by
  intro l
  induction l with
  | nil =>
    intro cur h
    simp only [wordsAux] at h
    by_cases hc : cur.isEmpty
    · exact ⟨List.isEmpty_iff.mp hc, by intro c hc'; cases hc'⟩
    · rw [if_neg hc] at h
      cases h
  | cons c cs ih =>
    intro cur h
    simp only [wordsAux] at h
    by_cases hw : isWsChar c
    · rw [if_pos hw] at h
      by_cases hc : cur.isEmpty
      · rw [if_pos hc] at h
        obtain ⟨-, hall⟩ := ih [] h
        refine ⟨List.isEmpty_iff.mp hc, ?_⟩
        intro d hd
        rcases List.mem_cons.mp hd with rfl | hd
        · exact hw
        · exact hall d hd
      · rw [if_neg hc] at h
        cases h
    · rw [if_neg hw] at h
      obtain ⟨hcur, -⟩ := ih (c :: cur) h
      cases hcur

theorem turkishLetter_not_ws : ∀ c : Char,
    turkishLetters.contains c = true → isWsChar c = false := by
  intro c hc
  simp only [turkishLetters, List.contains_eq_any_beq, List.any_cons,
    List.any_nil, Bool.or_eq_true, beq_iff_eq] at hc
  rcases hc with h | h | h | h | h | (h | h)
  all_goals first
    | (rw [h]; decide)
    | cases h

theorem splitWords_nil_turkish (l : List Char) (h : splitWords l = []) :
    l.filter (fun c => turkishLetters.contains c) = [] := by
  obtain ⟨-, hall⟩ := wordsAux_eq_nil l [] h
  rw [List.filter_eq_nil_iff]
  intro c hc
  intro htk
  have := turkishLetter_not_ws c htk
  rw [hall c hc] at this
  cases this

theorem maxRepeat_maxRun_aux :
    ∀ (ws : List (List Char)) (prev : List Char) (cur maxR best : Nat),
      1 ≤ cur → (2 ≤ cur → cur ≤ maxR) →
      max 2 maxR = max 2 (max best (if 2 ≤ cur then cur else 0)) →
      max 2 (maxRepeatAux prev cur maxR ws) =
        max 2 (maxRunAux prev cur best ws) := by
  intro ws
  induction ws with
  | nil =>
    intro prev cur maxR best h1 h2 h3
    simp only [maxRepeatAux, maxRunAux]
    by_cases hc : 2 ≤ cur
    · rw [if_pos hc] at h3
      have := h2 hc
      omega
    · rw [if_neg hc] at h3
      omega
  | cons w rest ih =>
    intro prev cur maxR best h1 h2 h3
    simp only [maxRepeatAux, maxRunAux]
    by_cases he : w = prev
    · rw [if_pos he, if_pos he]
      apply ih
      · omega
      · intro _
        exact le_max_right _ _
      · have h4 : 2 ≤ cur + 1 := by omega
        rw [if_pos h4]
        by_cases hc : 2 ≤ cur
        · rw [if_pos hc] at h3
          omega
        · rw [if_neg hc] at h3
          omega
    · rw [if_neg he, if_neg he]
      apply ih
      · omega
      · omega
      · have h4 : ¬ 2 ≤ 1 := by omega
        rw [if_neg h4]
        by_cases hc : 2 ≤ cur
        · rw [if_pos hc] at h3
          omega
        · rw [if_neg hc] at h3
          omega

theorem max2_codeMaxRepeat_eq_maxRun (ws : List (List Char)) :
    max 2 (codeMaxRepeat ws) = max 2 (maxRun ws) := by
  cases ws with
  | nil => rfl
  | cons w rest =>
    simp only [codeMaxRepeat, maxRun]
    apply maxRepeat_maxRun_aux
    · omega
    · omega
    · simp

/-- Claim C2 is false as stated: on the text "aa aa aa aa" with hint `en`
the code scores `4 − 20 − 12 = −28` (the nonsense penalty counts all four
occurrences of "aa"), while the claimed formula gives `4 − 20 − 3 = −19`
(one distinct word). -/
theorem quality_score_claim_cex :
    computeQualityScore "aa aa aa aa".toList "en" = -28 ∧
    qualityScoreClaim "aa aa aa aa".toList "en" = -19 ∧
    computeQualityScore "aa aa aa aa".toList "en" ≠
      qualityScoreClaim "aa aa aa aa".toList "en" := by
  refine ⟨by decide, by decide, by decide⟩

/-- Claim C2 (amended): for every text and hint, the quality score equals
`min(|words|, 80) + hintBonus − repeatPen − nonsensePen`, where
`repeatPen = 5·maxRepeat` when the longest run of identical consecutive
tokens exceeds 2 (else 0), `hintBonus` is as claimed, and `nonsensePen` is
3 per word *occurrence* `w` with `|w| ≤ 2` whose word occurs more than 3
times (not per distinct word). -/
theorem quality_score_amended_eq (text : List Char) (languageHint : String) :
    computeQualityScore text languageHint =
      qualityScoreAmended text languageHint := by
  unfold computeQualityScore qualityScoreAmended
  dsimp only
  by_cases h0 : (splitWords (text.map lowerChar)).length = 0
  · rw [if_pos h0]
    have hnil : splitWords (text.map lowerChar) = [] :=
      List.length_eq_zero.mp h0
    rw [hnil]
    have htk := splitWords_nil_turkish (text.map lowerChar) hnil
    unfold languageHintBonus
    simp only [maxRun, htk, List.filter_nil, List.length_nil, List.count_nil]
    split_ifs <;> simp
  · rw [if_neg h0]
    have hkey := max2_codeMaxRepeat_eq_maxRun (splitWords (text.map lowerChar))
    by_cases h2 : 2 < codeMaxRepeat (splitWords (text.map lowerChar))
    · have h3 : 2 < maxRun (splitWords (text.map lowerChar)) := by omega
      have h4 : codeMaxRepeat (splitWords (text.map lowerChar)) =
          maxRun (splitWords (text.map lowerChar)) := by omega
      rw [if_pos h2, if_pos h3, h4]
      ring
    · have h3 : ¬ 2 < maxRun (splitWords (text.map lowerChar)) := by omega
      rw [if_neg h2, if_neg h3]
      ring

/-! ## Claim C4: WAV file validity -/

theorem createWavHeader_length (dataSize sampleRate channels bits : Nat) :
    (createWavHeader dataSize sampleRate channels bits).length = 44 := by
  simp [createWavHeader, le32, le16]

theorem readLE32_wavHeader_40 (ds sr ch b : Nat) (data : List Nat) :
    readLE32 (createWavHeader ds sr ch b ++ data) 40 =
      ds % 256 + 256 * (ds / 256 % 256) + 65536 * (ds / 65536 % 256) +
        16777216 * (ds / 16777216 % 256) := rfl

theorem readLE32_wavHeader_4 (ds sr ch b : Nat) (data : List Nat) :
    readLE32 (createWavHeader ds sr ch b ++ data) 4 =
      (36 + ds) % 256 + 256 * ((36 + ds) / 256 % 256) +
        65536 * ((36 + ds) / 65536 % 256) +
        16777216 * ((36 + ds) / 16777216 % 256) := rfl

theorem wavChunks_spec :
    ∀ (chunks : List (List Int)) (w res : WavW),
      List.foldlM appendSamples w chunks = some res →
      res.bytes = w.bytes ++ (chunks.map fun c => c.flatMap int16Bytes).flatten ∧
      res.dataSize =
        w.dataSize + ((chunks.map fun c => c.flatMap int16Bytes).flatten).length ∧
      (w.dataSize < 4294967296 → res.dataSize < 4294967296) := by
  intro chunks
  induction chunks with
  | nil =>
    intro w res h
    simp only [List.foldlM_nil, List.foldlM_cons] at h
    cases h
    simp
  | cons c cs ih =>
    intro w res h
    simp only [List.foldlM_nil, List.foldlM_cons] at h
    cases hap : appendSamples w c with
    | none => rw [hap] at h; cases h
    | some w1 =>
      rw [hap] at h
      simp only [Option.bind_eq_bind, Option.some_bind] at h
      obtain ⟨h1, h2, h3⟩ := ih w1 res h
      unfold appendSamples at hap
      dsimp only at hap
      split at hap
      · rename_i hguard
        cases hap
        refine ⟨?_, ?_, ?_⟩
        · rw [h1]
          simp [List.append_assoc]
        · rw [h2]
          simp
          omega
        · intro _
          exact h3 hguard
      · cases hap

/-- Claim C4: for every sequence of `append` calls followed by `finish()`
that completes (no `UInt32` trap), the finished file is a 44-byte header
followed by exactly the appended sample bytes in order, its `dataSize`
field equals file size − 44, and its `chunkSize` field equals file size
− 8. -/
theorem wav_finish_valid (chunks : List (List Int)) (res : WavW)
    (h : wavRun chunks = some res) :
    res.bytes = createWavHeader res.dataSize 16000 1 16 ++
      (chunks.map fun c => c.flatMap int16Bytes).flatten ∧
    (createWavHeader res.dataSize 16000 1 16).length = 44 ∧
    readLE32 res.bytes 40 = res.bytes.length - 44 ∧
    readLE32 res.bytes 4 = res.bytes.length - 8 := by
  unfold wavRun at h
  cases hfold : List.foldlM appendSamples WavW.init chunks with
  | none => rw [hfold] at h; cases h
  | some w1 =>
    rw [hfold] at h
    simp only [Option.bind_eq_bind, Option.some_bind] at h
    obtain ⟨hb, hd, hbound⟩ := wavChunks_spec chunks WavW.init w1 hfold
    have hds : w1.dataSize < 4294967296 := hbound (by simp [WavW.init])
    unfold finishWav at h
    split at h
    · cases h
      have h36 : 36 + w1.dataSize < 4294967296 := by assumption
      have hlen0 : (createWavHeader 0 16000 1 16).length = 44 :=
        createWavHeader_length 0 16000 1 16
      have hdrop : w1.bytes.drop 44 =
          (chunks.map fun c => c.flatMap int16Bytes).flatten := by
        rw [hb]
        show ((WavW.init).bytes ++ _).drop 44 = _
        rw [show (WavW.init).bytes = createWavHeader 0 16000 1 16 from rfl,
          ← hlen0, List.drop_left]
      have hdlen : w1.dataSize =
          ((chunks.map fun c => c.flatMap int16Bytes).flatten).length := by
        rw [hd]
        show (WavW.init).dataSize + _ = _
        simp [WavW.init]
      refine ⟨?_, createWavHeader_length _ _ _ _, ?_, ?_⟩
      · show createWavHeader w1.dataSize 16000 1 16 ++ w1.bytes.drop 44 = _
        rw [hdrop]
      · show readLE32 (createWavHeader w1.dataSize 16000 1 16 ++
            w1.bytes.drop 44) 40 =
          (createWavHeader w1.dataSize 16000 1 16 ++ w1.bytes.drop 44).length - 44
        rw [readLE32_wavHeader_40, List.length_append,
          createWavHeader_length, hdrop, ← hdlen]
        omega
      · show readLE32 (createWavHeader w1.dataSize 16000 1 16 ++
            w1.bytes.drop 44) 4 =
          (createWavHeader w1.dataSize 16000 1 16 ++ w1.bytes.drop 44).length - 8
        rw [readLE32_wavHeader_4, List.length_append,
          createWavHeader_length, hdrop, ← hdlen]
        omega
    · cases h

/-- Witness for C4 at a concrete two-append run (samples 1, −1, then 0,
i.e. data bytes `[1, 0, 255, 255, 0, 0]`). -/
theorem wav_finish_valid_witness :
    (⟨createWavHeader 6 16000 1 16 ++ [1, 0, 255, 255, 0, 0], 6⟩ : WavW).bytes =
      createWavHeader
          (⟨createWavHeader 6 16000 1 16 ++ [1, 0, 255, 255, 0, 0], 6⟩ : WavW).dataSize
          16000 1 16 ++
        (([[1, -1], [0]] : List (List Int)).map fun c => c.flatMap int16Bytes).flatten ∧
    (createWavHeader
        (⟨createWavHeader 6 16000 1 16 ++ [1, 0, 255, 255, 0, 0], 6⟩ : WavW).dataSize
        16000 1 16).length = 44 ∧
    readLE32 (⟨createWavHeader 6 16000 1 16 ++ [1, 0, 255, 255, 0, 0], 6⟩ : WavW).bytes 40 =
      (⟨createWavHeader 6 16000 1 16 ++ [1, 0, 255, 255, 0, 0], 6⟩ : WavW).bytes.length - 44 ∧
    readLE32 (⟨createWavHeader 6 16000 1 16 ++ [1, 0, 255, 255, 0, 0], 6⟩ : WavW).bytes 4 =
      (⟨createWavHeader 6 16000 1 16 ++ [1, 0, 255, 255, 0, 0], 6⟩ : WavW).bytes.length - 8 :=
  wav_finish_valid [[1, -1], [0]] _ (by decide)

/-! ## Claim C5: ring-buffer snapshots -/

/-- Well-formedness of a buffer of capacity `C`: all states reachable from
`CBuf.init C` satisfy it. -/
def CBuf.WF (s : CBuf) (C : Nat) : Prop :=
  s.capacity = C ∧ s.count ≤ C ∧ s.writeIndex < C ∧
    (s.count < C → s.writeIndex = s.count)

/-- The retained samples in chronological order: the abstraction of a
buffer state used to verify `getSnapshot`. -/
def CBuf.chron (s : CBuf) : List Int :=
  (List.range s.count).map fun i =>
    s.buffer (((if s.count = s.capacity then s.writeIndex else 0) + i) % s.capacity)

theorem CBuf.chron_length (s : CBuf) : s.chron.length = s.count := by
  simp [CBuf.chron]

theorem add_mod_ne_self (C wi r : Nat) (hwi : wi < C) (hr1 : 1 ≤ r)
    (hr2 : r < C) : (wi + r) % C ≠ wi := by
  intro h
  by_cases hlt : wi + r < C
  · rw [Nat.mod_eq_of_lt hlt] at h
    omega
  · rw [Nat.mod_eq_sub_mod (by omega)] at h
    rw [Nat.mod_eq_of_lt (by omega)] at h
    omega

theorem getSnapshot_eq_chron (s : CBuf) (C k : Nat) (hWF : s.WF C)
    (_hC : 0 < C) :
    s.getSnapshot (some k) = s.chron.drop (s.count - min k s.count) := by
  obtain ⟨hcap, hle, hwi, hlt⟩ := hWF
  unfold CBuf.getSnapshot CBuf.chron
  by_cases h0 : s.count = 0
  · simp [h0]
  · rw [if_neg h0]
    dsimp only
    by_cases hk0 : min k s.count = 0
    · rw [if_pos hk0]
      have hk : k = 0 := by omega
      rw [hk]
      symm
      apply List.drop_eq_nil_of_le
      simp
  
    · rw [if_neg hk0]
      by_cases hfull : s.count = s.capacity
      · rw [if_pos hfull, if_pos hfull]
        by_cases hgt : s.capacity > k
        · rw [if_pos hgt]
          rw [List.map_drop, hfull]
          congr 1
          omega
        · rw [if_neg hgt]
          have : s.count - min k s.count = 0 := by omega
          rw [this, List.drop_zero, hfull]
      · rw [if_neg hfull, if_neg hfull]
        by_cases hgt : s.count > k
        · rw [if_pos hgt]
          rw [List.map_drop]
          congr 1
          omega
        · rw [if_neg hgt]
          have : s.count - min k s.count = 0 := by omega
          rw [this, List.drop_zero]

theorem appendOne_WF (s : CBuf) (C : Nat) (x : Int) (hWF : s.WF C)
    (hC : 0 < C) : (s.appendOne x).WF C := by
  obtain ⟨hcap, hle, hwi, hlt⟩ := hWF
  refine ⟨hcap, ?_, ?_, ?_⟩
  · simp only [CBuf.appendOne]
    omega
  · simp only [CBuf.appendOne, hcap]
    exact Nat.mod_lt _ hC
  · simp only [CBuf.appendOne, hcap]
    intro h
    have hc1 : s.count + 1 < C := by omega
    rw [hlt (by omega), Nat.mod_eq_of_lt hc1]
    omega

theorem CBuf.chron_getElem? (s : CBuf) (n : Nat) :
    s.chron[n]? =
      if n < s.count then
        some (s.buffer
          (((if s.count = s.capacity then s.writeIndex else 0) + n) % s.capacity))
      else none := by
  unfold CBuf.chron
  by_cases h : n < s.count
  · rw [if_pos h, List.getElem?_map, List.getElem?_range h, Option.map_some']
  · rw [if_neg h, List.getElem?_map, List.getElem?_eq_none (by simp; omega),
      Option.map_none']

theorem appendOne_chron (s : CBuf) (C : Nat) (x : Int) (hWF : s.WF C)
    (hC : 0 < C) :
    (s.appendOne x).chron =
      (s.chron ++ [x]).drop (s.count + 1 - min (s.count + 1) C) := by
  obtain ⟨hcap, hle, hwi, hlt⟩ := hWF
  have hbuf : ∀ j, (s.appendOne x).buffer j =
      if j = s.writeIndex then x else s.buffer j := fun _ => rfl
  have hcnt : (s.appendOne x).count = min (s.count + 1) C := by
    simp [CBuf.appendOne, hcap]
  have hwi2 : (s.appendOne x).writeIndex = (s.writeIndex + 1) % C := by
    simp [CBuf.appendOne, hcap]
  have hcap2 : (s.appendOne x).capacity = C := hcap
  have hclen : s.chron.length = s.count := s.chron_length
  by_cases hfull : s.count = C
  · -- full buffer: the oldest retained sample is dropped
    have hmin : min (s.count + 1) C = C := by omega
    have hfc : (s.appendOne x).count = (s.appendOne x).capacity := by
      rw [hcnt, hmin, hcap2]
    rw [show s.count + 1 - min (s.count + 1) C = 1 by omega]
    apply List.ext_getElem?
    intro n
    rw [CBuf.chron_getElem?, if_pos hfc, List.getElem?_drop,
      List.getElem?_append, CBuf.chron_getElem?,
      if_pos (hfull.trans hcap.symm), hcnt, hmin, hcap2, hwi2, hclen, hcap]
    rcases Nat.lt_trichotomy n (C - 1) with hn | hn | hn
    · rw [if_pos (show n < C by omega), hbuf]
      have hne : ((s.writeIndex + 1) % C + n) % C ≠ s.writeIndex := by
        rw [Nat.mod_add_mod]
        rw [show s.writeIndex + 1 + n = s.writeIndex + (1 + n) by omega]
        exact add_mod_ne_self C s.writeIndex (1 + n) hwi (by omega) (by omega)
      rw [if_neg hne]
      have h1n : 1 + n < s.count := by omega
      rw [if_pos h1n, if_pos h1n, Nat.mod_add_mod]
      rw [show s.writeIndex + 1 + n = s.writeIndex + (1 + n) by omega]
    · rw [if_pos (show n < C by omega), hbuf, Nat.mod_add_mod]
      rw [show s.writeIndex + 1 + n = s.writeIndex + C by omega,
        Nat.add_mod_right, Nat.mod_eq_of_lt hwi, if_pos rfl]
      have h1n : ¬ 1 + n < s.count := by omega
      rw [if_neg h1n, show 1 + n - s.count = 0 by omega]
      rfl
    · rw [if_neg (show ¬ n < C by omega)]
      have h1n : ¬ 1 + n < s.count := by omega
      rw [if_neg h1n, @List.getElem?_eq_none _ [x] _ (by simp; omega)]
  · -- buffer not yet full: the new sample is appended at the end
    have hcountlt : s.count < C := by omega
    have hwieq : s.writeIndex = s.count := hlt hcountlt
    have hmin : min (s.count + 1) C = s.count + 1 := by omega
    have hcc : ¬ s.count = s.capacity := by rw [hcap]; omega
    have hstart : (if (s.appendOne x).count = (s.appendOne x).capacity
        then (s.appendOne x).writeIndex else 0) = 0 := by
      by_cases hful2 : s.count + 1 = C
      · rw [if_pos (by rw [hcnt, hmin, hcap2, hful2]), hwi2, hwieq, hful2,
          Nat.mod_self]
      · rw [if_neg (by rw [hcnt, hmin, hcap2]; omega)]
    rw [show s.count + 1 - min (s.count + 1) C = 0 by omega, List.drop_zero]
    apply List.ext_getElem?
    intro n
    rw [CBuf.chron_getElem?, hstart, List.getElem?_append,
      CBuf.chron_getElem?, if_neg hcc, hcnt, hmin, hclen, hcap2, hcap]
    rcases Nat.lt_trichotomy n s.count with hn | hn | hn
    · rw [if_pos (show n < s.count + 1 by omega), hbuf, Nat.zero_add,
        Nat.mod_eq_of_lt (by omega), hwieq, if_neg (by omega),
        if_pos hn, if_pos hn]
    · rw [if_pos (show n < s.count + 1 by omega), hbuf, Nat.zero_add,
        Nat.mod_eq_of_lt (by omega), hwieq, if_pos (by omega),
        if_neg (show ¬ n < s.count by omega), show n - s.count = 0 by omega]
      rfl
    · rw [if_neg (show ¬ n < s.count + 1 by omega),
        if_neg (show ¬ n < s.count by omega),
        @List.getElem?_eq_none _ [x] _ (by simp; omega)]

theorem drop_suffix_append (C : Nat) (l m : List Int) :
    (l.drop (l.length - C) ++ m).drop
        ((l.drop (l.length - C) ++ m).length - C) =
      (l ++ m).drop ((l ++ m).length - C) := by
  apply List.ext_getElem?
  intro n
  rw [List.getElem?_drop, List.getElem?_drop, List.getElem?_append,
    List.getElem?_append, List.getElem?_drop]
  simp only [List.length_append, List.length_drop]
  by_cases h1 : l.length - (l.length - C) + m.length - C + n <
      l.length - (l.length - C)
  · rw [if_pos h1, if_pos (by omega)]
    congr 1
    omega
  · rw [if_neg h1, if_neg (by omega)]
    congr 1
    omega

theorem appendList_spec (C : Nat) (hC : 0 < C) :
    ∀ (xs : List Int) (s : CBuf), s.WF C →
      (s.appendList xs).WF C ∧
      (s.appendList xs).chron =
        (s.chron ++ xs).drop ((s.chron ++ xs).length - C) := by
  intro xs
  induction xs with
  | nil =>
    intro s hWF
    obtain ⟨hcap, hle, hwi, hlt⟩ := hWF
    refine ⟨⟨hcap, hle, hwi, hlt⟩, ?_⟩
    have h1 : s.appendList [] = s := rfl
    rw [h1, List.append_nil,
      show s.chron.length - C = 0 by rw [s.chron_length]; omega,
      List.drop_zero]
  | cons x xs ih =>
    intro s hWF
    have hstep := appendOne_chron s C x hWF hC
    have hWF1 := appendOne_WF s C x hWF hC
    obtain ⟨hWF2, hch⟩ := ih (s.appendOne x) hWF1
    refine ⟨hWF2, ?_⟩
    show ((s.appendOne x).appendList xs).chron = _
    rw [hch, hstep]
    have hlen : s.chron.length = s.count := s.chron_length
    have hamt : s.count + 1 - min (s.count + 1) C =
        (s.chron ++ [x]).length - C := by
      simp only [List.length_append, List.length_singleton, hlen]
      omega
    rw [hamt, drop_suffix_append C (s.chron ++ [x]) xs, List.append_assoc]
    rfl

theorem appendCalls_flatten : ∀ (calls : List (List Int)) (s : CBuf),
    s.appendCalls calls = s.appendList calls.flatten := by
  intro calls
  induction calls with
  | nil => intro s; rfl
  | cons c cs ih =>
    intro s
    show (s.appendList c).appendCalls cs = _
    rw [ih (s.appendList c)]
    show (s.appendList c).appendList cs.flatten =
      s.appendList (c :: cs).flatten
    rw [List.flatten_cons]
    unfold CBuf.appendList
    rw [List.foldl_append]

/-- Claim C5: after any sequence of `append(contentsOf:)` calls on a fresh
buffer of positive capacity `C` totaling `N` samples, `snapshot(k)`
returns exactly the most recent `min(N, k, C)` appended samples in
chronological order — the corresponding suffix of the appended
sequence. -/
theorem ring_snapshot_suffix (C : Nat) (hC : 0 < C) (calls : List (List Int))
    (k : Nat) :
    ((CBuf.init C).appendCalls calls).getSnapshot (some k) =
      calls.flatten.drop
        (calls.flatten.length - min calls.flatten.length (min k C)) ∧
    (((CBuf.init C).appendCalls calls).getSnapshot (some k)).length =
      min calls.flatten.length (min k C) := by
  have hWF0 : (CBuf.init C).WF C :=
    ⟨rfl, by simp [CBuf.init], by simpa [CBuf.init] using hC,
      by simp [CBuf.init]⟩
  obtain ⟨hWF, hch⟩ := appendList_spec C hC calls.flatten (CBuf.init C) hWF0
  rw [appendCalls_flatten]
  have hchron0 : (CBuf.init C).chron = [] := by simp [CBuf.chron, CBuf.init]
  rw [hchron0, List.nil_append] at hch
  have hclen := ((CBuf.init C).appendList calls.flatten).chron_length
  have hdlen : ((CBuf.init C).appendList calls.flatten).chron.length =
      calls.flatten.length - (calls.flatten.length - C) := by
    rw [hch]
    simp
  have hcount : ((CBuf.init C).appendList calls.flatten).count =
      min calls.flatten.length C := by omega
  rw [getSnapshot_eq_chron _ C k hWF hC, hch]
  constructor
  · rw [List.drop_drop]
    congr 1
    omega
  · simp only [List.length_drop]
    omega

/-- Witness for C5 at capacity 3, appends `[1,2]` then `[3,4]`, and
`snapshot(2)`. -/
theorem ring_snapshot_suffix_witness :
    ((CBuf.init 3).appendCalls [[1, 2], [3, 4]]).getSnapshot (some 2) =
      ([[1, 2], [3, 4]] : List (List Int)).flatten.drop
        (([[1, 2], [3, 4]] : List (List Int)).flatten.length -
          min ([[1, 2], [3, 4]] : List (List Int)).flatten.length (min 2 3)) ∧
    (((CBuf.init 3).appendCalls [[1, 2], [3, 4]]).getSnapshot (some 2)).length =
      min ([[1, 2], [3, 4]] : List (List Int)).flatten.length (min 2 3) :=
  ring_snapshot_suffix 3 (by decide) [[1, 2], [3, 4]] 2
